import Mathlib

/-!
Verification of the `CustomList` menu core of linutil (`src/list.rs`).

The embedding translates the Rust source directly:
* `Command` is the action payload of a menu entry (`Command::None` /
  `Command::Raw` / `Command::LocalFile`).
* `Tree` models the `ego_tree::Tree<ListNode>` catalog; a `NodeId` is the
  path of child indices from the root, which is a faithful stand-in for
  `ego_tree`'s stable arena handles.
* `CustomList` carries the same fields as the Rust struct; `list_state`
  models `ratatui::ListState`'s selection (`Option<usize>`).
* Rust `usize` arithmetic is modelled by `Nat`; the one subtraction in
  `try_scroll_down` (`count - 1`) is annotated where it occurs.
* Functions that Rust makes fallible by `unwrap()` on the current selection
  or on file reads are modelled with `Option` results where the claims need
  to observe the panic (`get_selected_command`, `toggle_preview_window`).
-/

namespace Linutil

/-- Modelled from the spec: the Action tagged union. The Rust `Command` enum
is defined in `running_command.rs`, which is outside `src/`; `list.rs` uses
exactly the three variants below (`None` group placeholder, `Raw` inline
script text, `LocalFile` relative script path). -/
inductive Command where
  | none
  | raw (cmd : String)
  | localFile (path : String)
deriving DecidableEq, Repr

/-- `struct ListNode { name, command }` from `list.rs`. -/
structure ListNode where
  name : String
  command : Command
deriving DecidableEq, Repr

/-- The `ego_tree::Tree<ListNode>` catalog: a rooted, ordered multi-way tree. -/
inductive Tree where
  | node (value : ListNode) (children : List Tree)

/-- Stable node identity, modelling `ego_tree::NodeId`: the path of child
indices leading from the root to the node. -/
abbrev NodeId := List Nat

def Tree.value : Tree → ListNode
  | .node v _ => v

def Tree.children : Tree → List Tree
  | .node _ cs => cs

/-- `NodeRef::has_children`. -/
def Tree.has_children (t : Tree) : Bool :=
  !t.children.isEmpty

/-- `Tree::get(id)`: resolve a `NodeId` (child-index path) to the subtree it
denotes, `none` when the path does not exist. -/
def Tree.get : Tree → NodeId → Option Tree
  | t, [] => some t
  | .node _ cs, i :: rest =>
      match cs.get? i with
      | some c => c.get rest
      | Option.none => Option.none

/-- `struct PreviewWindowState { text, scroll }`. -/
structure PreviewWindowState where
  text : List String
  scroll : Nat
deriving DecidableEq, Repr

/-- `struct CustomList` from `list.rs`. `visit_stack` is kept with the top of
the stack (Rust `Vec::last`) at the head of the list. -/
structure CustomList where
  inner_tree : Tree
  visit_stack : List NodeId
  list_state : Option Nat
  preview_window_state : Option PreviewWindowState
  filter_query : String
  filtered_items : List ListNode

/-- `CustomList::at_root`: `self.visit_stack.len() == 1`. -/
def CustomList.at_root (l : CustomList) : Prop :=
  l.visit_stack.length = 1

instance (l : CustomList) : Decidable l.at_root :=
  inferInstanceAs (Decidable (l.visit_stack.length = 1))

/-- The `NodeId` on top of the visit stack (`visit_stack.last().unwrap()`);
`[]` (the root path) is never returned in place of a panic because every
caller below matches on `currentNode` first. -/
def CustomList.currentPath (l : CustomList) : NodeId :=
  l.visit_stack.headD []

/-- `self.inner_tree.get(*self.visit_stack.last().unwrap())`: the node of the
current "directory". `none` models the panic on an empty stack or a dangling
id, which no reachable state produces. -/
def CustomList.currentNode (l : CustomList) : Option Tree :=
  match l.visit_stack with
  | [] => Option.none
  | p :: _ => l.inner_tree.get p

/-- `curr.children()` for the current node (empty on the unreachable panic
states). -/
def CustomList.currentChildren (l : CustomList) : List Tree :=
  match l.currentNode with
  | some t => t.children
  | Option.none => []

/-- Rust `str::to_lowercase()`, modelled by per-character ASCII lowering
(`to_lowercase` and `Char.toLower` agree on the ASCII names of this catalog;
the claims below only ever compare the code with itself through this one
function). -/
def strLower (s : String) : String :=
  String.mk (s.data.map Char.toLower)

/-- Rust `str::contains(&str)`: substring containment. -/
def containsSub (hay sub : String) : Bool :=
  decide (sub.toList <:+: hay.toList)

theorem tree_sizeOf_append (l1 l2 : List Tree) :
    sizeOf (l1 ++ l2) + 1 = sizeOf l1 + sizeOf l2 := by
  induction l1 with
  | nil => simp; omega
  | cons a l ih =>
      simp only [List.cons_append, List.cons.sizeOf_spec] at *
      omega

theorem tree_sizeOf_reverse (l : List Tree) : sizeOf l.reverse = sizeOf l := by
  induction l with
  | nil => rfl
  | cons a l ih =>
      have h := tree_sizeOf_append l.reverse [a]
      rw [List.reverse_cons]
      simp only [List.cons.sizeOf_spec, List.nil.sizeOf_spec] at h ⊢
      omega

/-- The `while let Some(node_id) = stack.pop()` traversal of
`CustomList::filter`, started on the stack `vec![root]`. The head of the
list is the end of the Rust `Vec` (the next node to pop); pushing the
children of a popped node therefore prepends `cs.reverse`. A popped node is
appended to `filtered_items` when its lowercased name contains the lowercased
query and it has no children. -/
def filterRun (queryLower : String) : List Tree → List ListNode
  | [] => []
  | Tree.node v cs :: stack =>
      (if containsSub (strLower v.name) queryLower && !(Tree.node v cs).has_children
       then [v] else [])
        ++ filterRun queryLower (cs.reverse ++ stack)
termination_by l => sizeOf l
decreasing_by
  have h := tree_sizeOf_append cs.reverse stack
  have h2 := tree_sizeOf_reverse cs
  simp only [List.cons.sizeOf_spec, Tree.node.sizeOf_spec] at *
  omega

/-- `CustomList::filter`: store the query and rebuild `filtered_items` from a
whole-tree traversal. -/
def CustomList.filter (l : CustomList) (query : String) : CustomList :=
  { l with
    filter_query := query
    filtered_items := filterRun (strLower query) [l.inner_tree] }

/-- `CustomList::reset_selection`. -/
def CustomList.reset_selection (l : CustomList) : CustomList :=
  if !l.filtered_items.isEmpty then
    { l with list_state := some 0 }
  else
    { l with list_state := Option.none }

/-- `CustomList::try_scroll_up`. -/
def CustomList.try_scroll_up (l : CustomList) : CustomList :=
  match l.list_state with
  | some selected =>
      if selected > 0 then { l with list_state := some (selected - 1) } else l
  | Option.none => l

/-- The `count` local of `CustomList::try_scroll_down`: the current node's
child count when no filter query is set, the filtered item count otherwise. -/
def CustomList.scrollCount (l : CustomList) : Nat :=
  if l.filter_query = "" then l.currentChildren.length else l.filtered_items.length

/-- `CustomList::try_scroll_down`. In the `at_root` branch `count - 1` is
`Nat` truncated subtraction; Rust would panic (debug) or wrap (release) when
`count = 0`, a case no claim's state reaches because the root of the shipped
catalog always has children and an empty filter result forces a `None`
selection. -/
def CustomList.try_scroll_down (l : CustomList) : CustomList :=
  match l.list_state with
  | some curr_selection =>
      if l.at_root then
        { l with list_state := some (min (curr_selection + 1) (l.scrollCount - 1)) }
      else
        { l with list_state := some (min (curr_selection + 1) l.scrollCount) }
  | Option.none => l

/-- The `for (mut idx, node) in curr.children().enumerate()` loop shared by
`handle_enter` and `get_selected_command`: starting the enumeration counter
at `j`, find the child whose index — incremented by one when `shift` (that
is, when not at the root) — equals `selected`. Returns the enumeration
position together with the child. -/
def findSelectedChild (shift : Bool) (selected : Nat) :
    Nat → List Tree → Option (Nat × Tree)
  | _, [] => Option.none
  | j, c :: cs =>
      if (if shift then j + 1 else j) = selected then some (j, c)
      else findSelectedChild shift selected (j + 1) cs

/-- `CustomList::get_selected_command`. The outer `Option` distinguishes the
panic of `self.list_state.selected().unwrap()` (and of the visit-stack
lookup) — `none` — from a normal return — `some r`, where `r` is the
`Option<Command>` the Rust function returns. -/
def CustomList.get_selected_command (l : CustomList) : Option (Option Command) :=
  match l.list_state with
  | Option.none => Option.none
  | some selected =>
      if l.filter_query = "" then
        match l.currentNode with
        | Option.none => Option.none
        | some curr =>
            if ¬l.at_root ∧ selected = 0 then
              some Option.none
            else
              some ((findSelectedChild (decide ¬l.at_root) selected 0
                      curr.children).map (fun p => p.2.value.command))
      else
        some ((l.filtered_items.get? selected).map (fun n => n.command))

/-- `CustomList::handle_enter`. Returns the `Option<Command>` result paired
with the updated state. A selection of `None` is first defaulted to `Some(0)`
exactly as in the source. -/
def CustomList.handle_enter (l : CustomList) : Option Command × CustomList :=
  let l0 := match l.list_state with
            | Option.none => { l with list_state := some 0 }
            | some _ => l
  let selected := l0.list_state.getD 0
  if l0.filter_query = "" then
    match l0.currentNode with
    | Option.none => (Option.none, l0)
    | some curr =>
        if ¬l0.at_root ∧ selected = 0 then
          (Option.none, { l0 with visit_stack := l0.visit_stack.tail,
                                  list_state := some 0 })
        else
          match findSelectedChild (decide ¬l0.at_root) selected 0 curr.children with
          | some (j, node) =>
              if node.has_children then
                (Option.none, { l0 with
                    visit_stack := (l0.currentPath ++ [j]) :: l0.visit_stack,
                    list_state := some 0 })
              else
                (some node.value.command, l0)
          | Option.none => (Option.none, l0)
  else
    match l0.filtered_items.get? selected with
    | some filtered_node => (some filtered_node.command, l0)
    | Option.none => (Option.none, l0)

/-- Rust `str::lines`: split on `'\n'`, drop a final empty segment (so a
trailing newline adds no line), and strip one trailing `'\r'` from each
line. -/
def rustLines (s : String) : List String :=
  let parts := s.splitOn "\n"
  let parts := if parts.getLast? = some "" then parts.dropLast else parts
  parts.map (fun line => if line.endsWith "\r" then line.dropRight 1 else line)

/-- `CustomList::toggle_preview_window`. The external filesystem
(`state.temp_path` joined with the node's relative path, then
`std::fs::read_to_string`) is abstracted as `fs : String → Option String`.
The outer `Option` is `none` exactly when the Rust code panics: on
`selected().unwrap()` with no selection, on an invalid visit stack, or on
`read_to_string(..).unwrap()` for a missing file. -/
def CustomList.toggle_preview_window (fs : String → Option String)
    (l : CustomList) : Option CustomList :=
  if l.preview_window_state.isSome then
    some { l with preview_window_state := Option.none }
  else
    match l.get_selected_command with
    | Option.none => Option.none
    | some Option.none => some l
    | some (some selected_command) =>
        match selected_command with
        | Command.raw cmd =>
            some { l with preview_window_state := some (PreviewWindowState.mk (rustLines cmd) 0) }
        | Command.localFile file_path =>
            match fs file_path with
            | some file_contents =>
                some { l with preview_window_state := some (PreviewWindowState.mk (rustLines file_contents) 0) }
            | Option.none => Option.none
        | Command.none => some l

/-- Stable insertion of `a` into a run already sorted by `le`: `a` is placed
before the first element `b` with `le a b`, so on ties the element inserted
earlier keeps its position — the stability guarantee of Rust's
`slice::sort_by`. -/
def insertByLe (le : ListNode → ListNode → Bool) (a : ListNode) :
    List ListNode → List ListNode
  | [] => [a]
  | b :: bs => if le a b then a :: b :: bs else b :: insertByLe le a bs

/-- Stable insertion sort. A stable sort's output is determined uniquely by
the comparator and the input order, so this models Rust's stable
`sort_by` exactly. -/
def sortByLe (le : ListNode → ListNode → Bool) : List ListNode → List ListNode
  | [] => []
  | a :: xs => insertByLe le a (sortByLe le xs)

@[simp] theorem length_insertByLe (le : ListNode → ListNode → Bool)
    (a : ListNode) (l : List ListNode) :
    (insertByLe le a l).length = l.length + 1 := by
  induction l with
  | nil => rfl
  | cons b bs ih => rw [insertByLe]; split <;> simp [ih]

@[simp] theorem length_sortByLe (le : ListNode → ListNode → Bool)
    (l : List ListNode) : (sortByLe le l).length = l.length := by
  induction l with
  | nil => rfl
  | cons a xs ih => rw [sortByLe]; simp [ih]

/-- The comparator of `draw`'s `sort_by(|a, b| a.name.cmp(b.name))`, as the
"less or equal" test a stable sort needs: `a.name.cmp(b.name)` is
`Less | Equal` exactly when `b.name` is not lexicographically smaller.
Lexicographic order on the character lists agrees with Rust's byte-wise
`str` order (UTF-8 preserves codepoint order). -/
def nameLe (a b : ListNode) : Bool :=
  !decide (b.name.data < a.name.data)

/-- The name-sorted copy of `filtered_items` built by `draw` when a filter
query is set. -/
def CustomList.sortedFilteredItems (l : CustomList) : List ListNode :=
  sortByLe nameLe l.filtered_items

/-- The rows `draw` displays, reduced to their name text (icons and styling
are theme cosmetics): with no filter query, an optional `..` row followed by
the current node's children; with a filter query, the name-sorted filtered
items. -/
def CustomList.drawnRows (l : CustomList) : List String :=
  if l.filter_query = "" then
    (if l.at_root then [] else [".."])
      ++ l.currentChildren.map (fun t => t.value.name)
  else
    l.sortedFilteredItems.map (fun n => n.name)

/-- The number of rows on screen (the spec's `visible_count`). -/
def CustomList.visibleCount (l : CustomList) : Nat :=
  l.drawnRows.length

/-! ### The catalog built by `CustomList::new` -/

/-- The literal `tree!` catalog of `CustomList::new`. -/
def linutilTree : Tree :=
  .node ⟨"root", Command.none⟩
    [ .node ⟨"System Setup", Command.none⟩
        [ .node ⟨"Build Prerequisites", Command.localFile "system-setup/1-compile-setup.sh"⟩ [],
          .node ⟨"Gaming Dependencies", Command.localFile "system-setup/2-gaming-setup.sh"⟩ [],
          .node ⟨"Global Theme", Command.localFile "system-setup/3-global-theme.sh"⟩ [] ],
      .node ⟨"Security", Command.none⟩
        [ .node ⟨"Firewall Baselines (CTT)", Command.localFile "security/firewall-baselines.sh"⟩ [] ],
      .node ⟨"Applications Setup", Command.none⟩
        [ .node ⟨"Alacritty Setup", Command.localFile "applications-setup/alacritty-setup.sh"⟩ [],
          .node ⟨"Bash Prompt Setup", Command.raw "bash -c \"$(curl -s https://raw.githubusercontent.com/ChrisTitusTech/mybash/main/setup.sh)\""⟩ [],
          .node ⟨"Kitty Setup", Command.localFile "applications-setup/kitty-setup.sh"⟩ [],
          .node ⟨"Neovim Setup", Command.raw "bash -c \"$(curl -s https://raw.githubusercontent.com/ChrisTitusTech/neovim/main/setup.sh)\""⟩ [],
          .node ⟨"Rofi Setup", Command.localFile "applications-setup/rofi-setup.sh"⟩ [] ],
      .node ⟨"Full System Update", Command.localFile "system-update.sh"⟩ [] ]

/-- `CustomList::new`: visit stack `vec![root_id]`, selection `Some(0)`, no
preview, empty query, no filtered items. -/
def CustomList.new : CustomList :=
  { inner_tree := linutilTree
    visit_stack := [[]]
    list_state := some 0
    preview_window_state := Option.none
    filter_query := ""
    filtered_items := [] }

/-! ### A structurally recursive reformulation of the filter traversal

`filterRun` pops the end of a `Vec`, so it emits a node's value first and
then traverses its children in reverse order, each child's subtree fully
before the next. The mutual definitions below compute the same list by
structural recursion, which the kernel can evaluate on concrete states; the
equivalence is `filterRun_eq_matchedStack`. -/

mutual
/-- The items the traversal emits from one subtree: the node itself when it
is a matching leaf, then its children in reverse order. -/
def matchedTree (queryLower : String) : Tree → List ListNode
  | .node v cs =>
      (if containsSub (strLower v.name) queryLower && !(Tree.node v cs).has_children
       then [v] else [])
        ++ matchedForest queryLower cs

/-- The items the traversal emits from a list of sibling subtrees, traversed
in reverse order. -/
def matchedForest (queryLower : String) : List Tree → List ListNode
  | [] => []
  | c :: cs => matchedForest queryLower cs ++ matchedTree queryLower c
end

/-- The items the traversal emits from a whole stack, front (next pop) first. -/
def matchedStack (queryLower : String) : List Tree → List ListNode
  | [] => []
  | t :: stack => matchedTree queryLower t ++ matchedStack queryLower stack

theorem matchedStack_append (ql : String) (xs ys : List Tree) :
    matchedStack ql (xs ++ ys) = matchedStack ql xs ++ matchedStack ql ys := by
  induction xs with
  | nil => simp [matchedStack]
  | cons t xs ih => simp [matchedStack, ih]

theorem matchedForest_eq_matchedStack_reverse (ql : String) (cs : List Tree) :
    matchedForest ql cs = matchedStack ql cs.reverse := by
  induction cs with
  | nil => rfl
  | cons c cs ih =>
      rw [List.reverse_cons, matchedStack_append]
      simp [matchedForest, matchedStack, ih]

/-- The `Vec`-stack traversal of `CustomList::filter` agrees with the
structural reformulation. -/
theorem filterRun_eq_matchedStack (ql : String) (stack : List Tree) :
    filterRun ql stack = matchedStack ql stack := by
  have H : ∀ n (stack : List Tree), sizeOf stack ≤ n →
      filterRun ql stack = matchedStack ql stack := by
    intro n
    induction n with
    | zero =>
        intro stack h
        cases stack with
        | nil => rw [filterRun]; rfl
        | cons t s => simp [List.cons.sizeOf_spec] at h
    | succ n ih =>
        intro stack h
        match stack with
        | [] => rw [filterRun]; rfl
        | Tree.node v cs :: rest =>
            rw [filterRun]
            have hsz : sizeOf (cs.reverse ++ rest) ≤ n := by
              have h1 := tree_sizeOf_append cs.reverse rest
              have h2 := tree_sizeOf_reverse cs
              simp only [List.cons.sizeOf_spec, Tree.node.sizeOf_spec] at h
              omega
            rw [ih _ hsz, matchedStack_append,
                ← matchedForest_eq_matchedStack_reverse]
            simp [matchedStack, matchedTree]
  exact H (sizeOf stack) stack le_rfl

/-! ### Which items the filter traversal emits -/

mutual
/-- Every subtree of a tree, the tree itself included. -/
def Tree.subtreesT : Tree → List Tree
  | .node v cs => .node v cs :: Tree.subtreesF cs

/-- Every subtree of any tree in a list of sibling subtrees. -/
def Tree.subtreesF : List Tree → List Tree
  | [] => []
  | c :: cs => Tree.subtreesT c ++ Tree.subtreesF cs
end

/-- The matching rule of `CustomList::filter`, read off a subtree: a leaf
(no children) whose lowercased name contains the (lowercased) query. -/
def isMatchingLeaf (queryLower : String) (s : Tree) : Prop :=
  s.children = [] ∧ containsSub (strLower s.value.name) queryLower = true

mutual
theorem mem_matchedTree (ql : String) (x : ListNode) :
    ∀ t, x ∈ matchedTree ql t ↔
      ∃ s, s ∈ Tree.subtreesT t ∧ isMatchingLeaf ql s ∧ s.value = x
  | .node v cs => by
      have hf := mem_matchedForest ql x cs
      rw [matchedTree, Tree.subtreesT]
      simp only [List.mem_append, List.mem_ite_nil_right, List.mem_cons,
        List.not_mem_nil, or_false, hf]
      constructor
      · rintro (⟨hb, rfl⟩ | ⟨s, hs, hm, hv⟩)
        · rcases Bool.and_eq_true_iff.mp hb with ⟨hc, hnc⟩
          have hcs : cs = [] := by
            simpa [Tree.has_children, Tree.children] using hnc
          exact ⟨.node x cs, Or.inl rfl,
            ⟨by simp [Tree.children, hcs], by simpa [Tree.value] using hc⟩,
            rfl⟩
        · exact ⟨s, Or.inr hs, hm, hv⟩
      · rintro ⟨s, hs | hs, hm, hv⟩
        · subst hs
          rcases hm with ⟨hcs, hc⟩
          simp only [Tree.children] at hcs
          simp only [Tree.value] at hv hc
          refine Or.inl ⟨Bool.and_eq_true_iff.mpr ⟨hc, ?_⟩, hv.symm⟩
          simp [Tree.has_children, Tree.children, hcs]
        · exact Or.inr ⟨s, hs, hm, hv⟩

theorem mem_matchedForest (ql : String) (x : ListNode) :
    ∀ cs, x ∈ matchedForest ql cs ↔
      ∃ s, s ∈ Tree.subtreesF cs ∧ isMatchingLeaf ql s ∧ s.value = x
  | [] => by simp [matchedForest, Tree.subtreesF]
  | c :: cs => by
      have ht := mem_matchedTree ql x c
      have hf := mem_matchedForest ql x cs
      rw [matchedForest, Tree.subtreesF]
      simp only [List.mem_append, ht, hf]
      constructor
      · rintro (⟨s, hs, hm, hv⟩ | ⟨s, hs, hm, hv⟩)
        · exact ⟨s, Or.inr hs, hm, hv⟩
        · exact ⟨s, Or.inl hs, hm, hv⟩
      · rintro ⟨s, hs | hs, hm, hv⟩
        · exact Or.inr ⟨s, hs, hm, hv⟩
        · exact Or.inl ⟨s, hs, hm, hv⟩
end

/-- Membership in a freshly computed filter result, characterized over the
whole tree. -/
theorem mem_filtered_items (l : CustomList) (q : String) (x : ListNode) :
    x ∈ (l.filter q).filtered_items ↔
      ∃ s, s ∈ Tree.subtreesT l.inner_tree ∧ isMatchingLeaf (strLower q) s ∧
        s.value = x := by
  show x ∈ filterRun (strLower q) [l.inner_tree] ↔ _
  rw [filterRun_eq_matchedStack]
  simp only [matchedStack, List.append_nil]
  exact mem_matchedTree (strLower q) x l.inner_tree

/-! ### Move sequences and the selection-bounds invariant -/

/-- A `j`/down or `k`/up key with the preview closed. -/
inductive MoveOp where
  | down
  | up
deriving DecidableEq, Repr

def CustomList.applyMove (l : CustomList) : MoveOp → CustomList
  | .down => l.try_scroll_down
  | .up => l.try_scroll_up

def CustomList.applyMoves (l : CustomList) : List MoveOp → CustomList
  | [] => l
  | m :: ms => (l.applyMove m).applyMoves ms

/-- The invariant exactly as the claim states it: a selected index lies in
`[0, visible_count)`, and the selection is `None` whenever
`visible_count = 0`. -/
def selInBoundsClaim (l : CustomList) : Bool :=
  (match l.list_state with
   | some i => decide (i < l.visibleCount)
   | Option.none => true)
  && (decide (l.visibleCount ≠ 0) || l.list_state.isNone)

/-- The invariant the code actually maintains: as the claim states it, except
that with the filter active and not at the root the selected index may also
equal `visible_count` (one past the last row). -/
def selInBoundsAmended (l : CustomList) : Bool :=
  (match l.list_state with
   | some i =>
       if l.filter_query ≠ "" ∧ ¬l.at_root then decide (i ≤ l.visibleCount)
       else decide (i < l.visibleCount)
   | Option.none => true)
  && (decide (l.visibleCount ≠ 0) || l.list_state.isNone)

theorem visibleCount_eq_scrollCount (l : CustomList) :
    l.visibleCount = l.scrollCount + (if l.filter_query = "" ∧ ¬l.at_root then 1 else 0) := by
  unfold CustomList.visibleCount CustomList.drawnRows CustomList.scrollCount
    CustomList.sortedFilteredItems
  by_cases hq : l.filter_query = ""
  · by_cases hr : l.at_root
    · simp [hq, hr]
    · simp [hq, hr]
  · simp [hq]

theorem selInBoundsAmended_iff (l : CustomList) :
    selInBoundsAmended l = true ↔
      ((∀ i, l.list_state = some i →
          if l.filter_query ≠ "" ∧ ¬l.at_root then i ≤ l.visibleCount
          else i < l.visibleCount)
        ∧ (l.visibleCount = 0 → l.list_state = Option.none)) := by
  unfold selInBoundsAmended
  by_cases hc : l.filter_query ≠ "" ∧ ¬l.at_root <;>
    cases hls : l.list_state <;>
      simp [hc, hls]

/-- `selInBoundsAmended_iff`, restated for a state whose selection was just
replaced; all other fields project definitionally. -/
theorem selInBoundsAmended_iff_update (l : CustomList) (v : Option Nat) :
    selInBoundsAmended { l with list_state := v } = true ↔
      ((∀ i, v = some i →
          if l.filter_query ≠ "" ∧ ¬l.at_root then i ≤ l.visibleCount
          else i < l.visibleCount)
        ∧ (l.visibleCount = 0 → v = Option.none)) :=
  selInBoundsAmended_iff { l with list_state := v }

theorem selInBoundsAmended_try_scroll_up (l : CustomList)
    (h : selInBoundsAmended l = true) :
    selInBoundsAmended l.try_scroll_up = true := by
  rw [selInBoundsAmended_iff] at h
  obtain ⟨h1, h2⟩ := h
  unfold CustomList.try_scroll_up
  cases hls : l.list_state with
  | none => exact (selInBoundsAmended_iff l).mpr ⟨h1, h2⟩
  | some i =>
      dsimp only
      have hb := h1 i hls
      by_cases hi : i > 0
      · rw [if_pos hi]
        refine (selInBoundsAmended_iff_update l _).mpr ⟨?_, fun h0 => ?_⟩
        · rintro j hj
          injection hj with hj
          subst hj
          by_cases hc : l.filter_query ≠ "" ∧ ¬l.at_root
          · rw [if_pos hc] at hb ⊢; omega
          · rw [if_neg hc] at hb ⊢; omega
        · have := h2 h0
          rw [this] at hls
          exact Option.noConfusion hls
      · rw [if_neg hi]
        exact (selInBoundsAmended_iff l).mpr ⟨h1, h2⟩

theorem selInBoundsAmended_try_scroll_down (l : CustomList)
    (h : selInBoundsAmended l = true) :
    selInBoundsAmended l.try_scroll_down = true := by
  rw [selInBoundsAmended_iff] at h
  obtain ⟨h1, h2⟩ := h
  have hvc := visibleCount_eq_scrollCount l
  unfold CustomList.try_scroll_down
  cases hls : l.list_state with
  | none => exact (selInBoundsAmended_iff l).mpr ⟨h1, h2⟩
  | some i =>
      dsimp only
      have hne : l.visibleCount ≠ 0 := by
        intro h0
        have := h2 h0
        rw [this] at hls
        exact Option.noConfusion hls
      by_cases hr : l.at_root
      · rw [if_pos hr]
        refine (selInBoundsAmended_iff_update l _).mpr
          ⟨?_, fun h0 => absurd h0 hne⟩
        rintro j hj
        injection hj with hj
        subst hj
        have hcond : ¬(l.filter_query ≠ "" ∧ ¬l.at_root) := by tauto
        rw [if_neg hcond]
        have hz : (if l.filter_query = "" ∧ ¬l.at_root then 1 else 0) = 0 := by
          simp [hr]
        omega
      · rw [if_neg hr]
        refine (selInBoundsAmended_iff_update l _).mpr
          ⟨?_, fun h0 => absurd h0 hne⟩
        rintro j hj
        injection hj with hj
        subst hj
        by_cases hq : l.filter_query = ""
        · have hcond : ¬(l.filter_query ≠ "" ∧ ¬l.at_root) := by tauto
          rw [if_neg hcond]
          have hz : (if l.filter_query = "" ∧ ¬l.at_root then 1 else 0) = 1 := by
            simp [hq, hr]
          omega
        · have hcond : l.filter_query ≠ "" ∧ ¬l.at_root := ⟨hq, hr⟩
          rw [if_pos hcond]
          have hz : (if l.filter_query = "" ∧ ¬l.at_root then 1 else 0) = 0 := by
            simp [hq]
          omega

theorem selInBoundsAmended_applyMove (l : CustomList) (m : MoveOp)
    (h : selInBoundsAmended l = true) :
    selInBoundsAmended (l.applyMove m) = true := by
  cases m
  · exact selInBoundsAmended_try_scroll_down l h
  · exact selInBoundsAmended_try_scroll_up l h

/-! ### Resolving a selected index to a child -/

/-- Closed form of the enumerate loop: starting the counter at `j` with the
shift-adjusted start not yet past `selected`, it finds exactly the child at
list position `selected` minus the shift offset. -/
theorem findSelectedChild_eq (shift : Bool) (sel : Nat) :
    ∀ (cs : List Tree) (j : Nat), (if shift then j + 1 else j) ≤ sel →
      findSelectedChild shift sel j cs =
        (cs.get? (sel - (if shift then j + 1 else j))).map
          (fun c => (sel - (if shift then 1 else 0), c)) := by
  intro cs
  induction cs with
  | nil => intro j h; rfl
  | cons c cs ih =>
      intro j h
      rw [findSelectedChild]
      by_cases he : (if shift then j + 1 else j) = sel
      · rw [if_pos he]
        have h0 : sel - (if shift then j + 1 else j) = 0 := by omega
        rw [h0]
        have hj : j = sel - (if shift then 1 else 0) := by
          cases shift <;> (try simp at *) <;> omega
        simp [hj]
      · rw [if_neg he]
        have h' : (if shift then (j + 1) + 1 else (j + 1)) ≤ sel := by
          cases shift <;> (try simp at *) <;> omega
        rw [ih (j + 1) h']
        have h1 : sel - (if shift then j + 1 else j) =
            (sel - (if shift then (j + 1) + 1 else (j + 1))) + 1 := by
          cases shift <;> (try simp at *) <;> omega
        rw [h1, List.get?_cons_succ]

/-- `findSelectedChild` from the top with no shift: a plain list lookup. -/
theorem findSelectedChild_false (sel : Nat) (cs : List Tree) :
    findSelectedChild false sel 0 cs = (cs.get? sel).map (fun c => (sel, c)) := by
  have h := findSelectedChild_eq false sel cs 0 (by simp)
  simpa using h

/-- `findSelectedChild` from the top with the not-at-root shift: a lookup at
the display index minus one. -/
theorem findSelectedChild_true (sel : Nat) (cs : List Tree) (hsel : 1 ≤ sel) :
    findSelectedChild true sel 0 cs =
      (cs.get? (sel - 1)).map (fun c => (sel - 1, c)) := by
  have h := findSelectedChild_eq true sel cs 0 (by simpa using hsel)
  simpa using h

/-- Dropping a record's preview field to `none` is the identity when it
already is `none`. -/
theorem update_preview_none_eq (l : CustomList)
    (h : l.preview_window_state = Option.none) :
    { l with preview_window_state := Option.none } = l := by
  cases l
  simp_all

/-! ### Concrete states used by counterexamples and witnesses -/

/-- The state reached from `new()` by one `move_down` (selecting "Security")
and enter: current group "Security", selection back at 0. -/
def enterSecurity : CustomList :=
  (CustomList.new.try_scroll_down.handle_enter).2

/-- `enterSecurity` after typing the query "firewall" (as `draw` does each
frame) and the follow-up `reset_selection`. -/
def firewallFiltered : CustomList :=
  (enterSecurity.filter "firewall").reset_selection

/-! ### Claim theorems -/

/-- C1 (code bug): with the filter "setup" active and selection 0, the row
shown at index 0 of the sorted display is "Alacritty Setup", yet
`handle_enter` indexes the unsorted `filtered_items` and returns the Action
of "Rofi Setup"; the visit stack is indeed left unchanged. The claim that
enter resolves through the name-sorted (displayed) list is what the drawing
code intends, and this evaluation exhibits the divergence. -/
theorem enter_with_filter_reads_unsorted_items :
    ((CustomList.new.filter "setup").handle_enter).1 =
        some (Command.localFile "applications-setup/rofi-setup.sh") ∧
    ((CustomList.new.filter "setup").handle_enter).2.visit_stack =
        (CustomList.new.filter "setup").visit_stack ∧
    ((CustomList.new.filter "setup").sortedFilteredItems).get? 0 =
        some ⟨"Alacritty Setup", Command.localFile "applications-setup/alacritty-setup.sh"⟩ ∧
    ((CustomList.new.filter "setup").filtered_items).get? 0 =
        some ⟨"Rofi Setup", Command.localFile "applications-setup/rofi-setup.sh"⟩ ∧
    (CustomList.new.filter "setup").list_state = some 0 := by
  simp only [CustomList.filter, filterRun_eq_matchedStack]
  decide

/-- C2 (counterexample): in the reachable state "inside Security with the
filter query firewall" the claimed invariant `index ∈ [0, visible_count)`
holds, yet a single `move_down` breaks it: the code clamps to
`filtered_items.len()` itself when not at the root, so the selection becomes
1 with only one visible row. -/
theorem selection_bounds_claim_counterexample :
    selInBoundsClaim firewallFiltered = true ∧
    selInBoundsClaim (firewallFiltered.applyMoves [MoveOp.down]) = false := by
  unfold firewallFiltered enterSecurity
  simp only [CustomList.filter, filterRun_eq_matchedStack]
  decide

/-- C2 (amended): under every sequence of `move_down`/`move_up` calls the
selection index stays within `[0, visible_count)` — except that with the
filter active and not at the root it may also equal `visible_count` — and a
`None` selection is forced whenever `visible_count = 0`. -/
theorem selection_bounds_amended_invariant (l : CustomList)
    (h : selInBoundsAmended l = true) (ms : List MoveOp) :
    selInBoundsAmended (l.applyMoves ms) = true := by
  induction ms generalizing l with
  | nil => exact h
  | cons m ms ih => exact ih _ (selInBoundsAmended_applyMove l m h)

/-- C2 witness: the amended invariant holds at `new()` and is carried through
a concrete move sequence. -/
theorem selection_bounds_amended_invariant_witness :
    selInBoundsAmended
      (CustomList.new.applyMoves [MoveOp.down, MoveOp.down, MoveOp.up]) = true :=
  selection_bounds_amended_invariant CustomList.new (by decide)
    [MoveOp.down, MoveOp.down, MoveOp.up]

/-- C3: for every query, `filter` fills `filtered_items` with exactly the
values of the leaf nodes (no children) whose lowercased name contains the
lowercased query as a substring; in particular no node with children ever
contributes, whatever its name. -/
theorem filter_yields_exactly_matching_leaves (l : CustomList) (q : String)
    (x : ListNode) :
    x ∈ (l.filter q).filtered_items ↔
      ∃ s, s ∈ Tree.subtreesT l.inner_tree ∧ s.children = [] ∧
        containsSub (strLower s.value.name) (strLower q) = true ∧
        s.value = x := by
  have h := mem_filtered_items l q x
  simpa [isMatchingLeaf, and_assoc] using h

/-- C4 (counterexample): inside "Security" (one child) with the filter
inactive and selection 1, `visible_count` is 2 and the claim's formula
`min(i+1, visible_count)` predicts 2, but `try_scroll_down` keeps the
selection at 1 (it clamps to the child count, which excludes the synthetic
up row). -/
theorem move_down_claim_counterexample :
    (enterSecurity.try_scroll_down).list_state = some 1 ∧
    enterSecurity.try_scroll_down.try_scroll_down.list_state = some 1 ∧
    (enterSecurity.try_scroll_down).visibleCount = 2 ∧
    ¬(enterSecurity.try_scroll_down).at_root ∧
    (enterSecurity.try_scroll_down).filter_query = "" ∧
    some (min (1 + 1) (enterSecurity.try_scroll_down).visibleCount) ≠ some 1 := by
  decide

/-- C4 (amended): `move_down` on selection `Some(i)` clamps to
`min(i+1, visible_count - 1)` in every case except "filter active and not at
root", where it sets `min(i+1, visible_count)`; `visible_count` counts the
synthetic up row when not at root with the filter inactive. -/
theorem move_down_amended_clamp (l : CustomList) (i : Nat)
    (h : l.list_state = some i) :
    (l.try_scroll_down).list_state =
      some (if l.filter_query ≠ "" ∧ ¬l.at_root
            then min (i + 1) l.visibleCount
            else min (i + 1) (l.visibleCount - 1)) := by
  have hvc := visibleCount_eq_scrollCount l
  unfold CustomList.try_scroll_down
  rw [h]
  dsimp only
  by_cases hr : l.at_root
  · rw [if_pos hr]
    have hcond : ¬(l.filter_query ≠ "" ∧ ¬l.at_root) := by tauto
    rw [if_neg hcond]
    have hz : (if l.filter_query = "" ∧ ¬l.at_root then 1 else 0) = 0 := by
      simp [hr]
    refine congrArg some ?_
    omega
  · rw [if_neg hr]
    by_cases hq : l.filter_query = ""
    · have hcond : ¬(l.filter_query ≠ "" ∧ ¬l.at_root) := by tauto
      rw [if_neg hcond]
      have hz : (if l.filter_query = "" ∧ ¬l.at_root then 1 else 0) = 1 := by
        simp [hq, hr]
      refine congrArg some ?_
      omega
    · have hcond : l.filter_query ≠ "" ∧ ¬l.at_root := ⟨hq, hr⟩
      rw [if_pos hcond]
      have hz : (if l.filter_query = "" ∧ ¬l.at_root then 1 else 0) = 0 := by
        simp [hq]
      refine congrArg some ?_
      omega

/-- C4 witness: the amended clamp evaluated at `new()`. -/
theorem move_down_amended_clamp_witness :
    (CustomList.new.try_scroll_down).list_state =
      some (if CustomList.new.filter_query ≠ "" ∧ ¬CustomList.new.at_root
            then min (0 + 1) CustomList.new.visibleCount
            else min (0 + 1) (CustomList.new.visibleCount - 1)) :=
  move_down_amended_clamp CustomList.new 0 rfl

/-- C5 (counterexample): at the freshly constructed state the visible list
has four rows (the root's children), yet `reset_selection` sets the
selection to `None` because `filtered_items` — the only list it consults —
is still empty; the claim that the `Some(0)`/`None` decision follows the
mode-dependent visible list is false. -/
theorem reset_selection_claim_counterexample :
    (CustomList.new.reset_selection).list_state = Option.none ∧
    CustomList.new.visibleCount = 4 ∧
    (CustomList.new.reset_selection).list_state ≠ some 0 := by
  decide

/-- C5 (amended): `reset_selection` decides against `filtered_items` alone —
`Some(0)` iff it is non-empty — regardless of mode; when the filter is
active this coincides with emptiness of the visible list, as the claim says,
but when the filter is inactive the visible tree view is not consulted. -/
theorem reset_selection_amended_rule (l : CustomList) :
    ((l.reset_selection).list_state =
        if l.filtered_items.isEmpty then Option.none else some 0)
    ∧ (l.filter_query ≠ "" →
        ((l.reset_selection).list_state = Option.none ↔ l.visibleCount = 0)) := by
  constructor
  · unfold CustomList.reset_selection
    by_cases h : l.filtered_items.isEmpty <;> simp [h]
  · intro hq
    have hlen : l.visibleCount = l.filtered_items.length := by
      unfold CustomList.visibleCount CustomList.drawnRows
      rw [if_neg hq]
      simp [CustomList.sortedFilteredItems]
    unfold CustomList.reset_selection
    by_cases h : l.filtered_items.isEmpty
    · have h' : l.filtered_items = [] := List.isEmpty_iff.mp h
      simp [h, hlen, h']
    · have h' : l.filtered_items ≠ [] := by
        simpa [List.isEmpty_iff] using h
      simp only [h, Bool.not_false, if_true, hlen]
      constructor
      · intro hc
        exact absurd hc (by simp)
      · intro hc
        exact absurd (List.length_eq_zero.mp hc) h'

/-- C5 witness: the amended rule applied at a state with an active filter
query and an empty filtered list. -/
theorem reset_selection_amended_rule_witness :
    (((CustomList.mk linutilTree [[]] (some 0) Option.none "zzz" []).reset_selection).list_state
        = Option.none
      ↔ (CustomList.mk linutilTree [[]] (some 0) Option.none "zzz" []).visibleCount = 0) :=
  (reset_selection_amended_rule
    (CustomList.mk linutilTree [[]] (some 0) Option.none "zzz" [])).2 (by decide)

/-- C6: with the filter inactive, not at the root, and selection 0 (the
synthetic up row), `handle_enter` pops exactly one entry off the visit
stack, resets the selection to 0, and returns no Action. -/
theorem enter_on_up_row_pops_one_level (l : CustomList)
    (hq : l.filter_query = "") (hr : ¬l.at_root) (hs : l.list_state = some 0)
    (hc : (l.currentNode).isSome = true) :
    l.handle_enter =
      (Option.none,
        { l with visit_stack := l.visit_stack.tail, list_state := some 0 }) := by
  obtain ⟨t, ht⟩ := Option.isSome_iff_exists.mp hc
  unfold CustomList.handle_enter
  rw [hs]
  dsimp only
  rw [hs]
  dsimp only [Option.getD_some]
  rw [if_pos hq, ht]
  dsimp only
  rw [if_pos ⟨hr, rfl⟩]

/-- C6 witness: entering on the up row inside "Security". -/
theorem enter_on_up_row_pops_one_level_witness :
    enterSecurity.handle_enter =
      (Option.none,
        { enterSecurity with visit_stack := enterSecurity.visit_stack.tail,
                             list_state := some 0 }) :=
  enter_on_up_row_pops_one_level enterSecurity rfl (by decide) (by decide)
    (by decide)

/-- C7: with the filter inactive on a non-up row, `handle_enter` resolves the
selection to the child at the display index minus one when not at the root
(minus zero at the root); a child with children is descended into — exactly
one identity pushed, selection reset to 0, no Action — while a childless
child has its Action returned with the state untouched. -/
theorem enter_resolves_child_node (l : CustomList) (sel : Nat)
    (curr child : Tree)
    (hq : l.filter_query = "") (hs : l.list_state = some sel)
    (hcur : l.currentNode = some curr)
    (hnot : l.at_root ∨ sel ≠ 0)
    (hchild : curr.children.get? (sel - (if l.at_root then 0 else 1)) = some child) :
    l.handle_enter =
      if child.has_children then
        (Option.none,
          { l with
            visit_stack :=
              (l.currentPath ++ [sel - (if l.at_root then 0 else 1)]) :: l.visit_stack,
            list_state := some 0 })
      else
        (some child.value.command, l) := by
  unfold CustomList.handle_enter
  rw [hs]
  dsimp only
  rw [hs]
  dsimp only [Option.getD_some]
  rw [if_pos hq, hcur]
  dsimp only
  by_cases hr : l.at_root
  · rw [if_neg (by tauto : ¬(¬l.at_root ∧ sel = 0))]
    have hd : (decide ¬l.at_root) = false := by simp [hr]
    rw [hd, findSelectedChild_false]
    simp only [if_pos hr, Nat.sub_zero] at hchild ⊢
    rw [hchild]
    rfl
  · have hsel : sel ≠ 0 := by tauto
    rw [if_neg (by tauto : ¬(¬l.at_root ∧ sel = 0))]
    have hd : (decide ¬l.at_root) = true := by simp [hr]
    rw [hd, findSelectedChild_true sel curr.children (by omega)]
    simp only [if_neg hr] at hchild ⊢
    rw [hchild]
    rfl

/-- C7 witness: entering "System Setup" (a group) from the root descends. -/
theorem enter_resolves_child_node_witness :
    CustomList.new.handle_enter =
      (Option.none,
        { CustomList.new with visit_stack := [[0], []], list_state := some 0 }) :=
  (enter_resolves_child_node CustomList.new 0 linutilTree
      (Tree.node ⟨"System Setup", Command.none⟩
        [ .node ⟨"Build Prerequisites", Command.localFile "system-setup/1-compile-setup.sh"⟩ [],
          .node ⟨"Gaming Dependencies", Command.localFile "system-setup/2-gaming-setup.sh"⟩ [],
          .node ⟨"Global Theme", Command.localFile "system-setup/3-global-theme.sh"⟩ [] ])
      rfl rfl rfl (Or.inl rfl) rfl).trans rfl

/-- C8: toggling the preview open (from a closed preview, with the toggle
succeeding and actually opening a preview) and then toggling again restores
the original state exactly; in particular the second toggle discards the
preview state entirely. -/
theorem toggle_preview_round_trip (fs : String → Option String)
    (l lopen : CustomList)
    (hclosed : l.preview_window_state = Option.none)
    (h1 : l.toggle_preview_window fs = some lopen)
    (hopen : (lopen.preview_window_state).isSome = true) :
    lopen.toggle_preview_window fs = some l := by
  unfold CustomList.toggle_preview_window at h1
  rw [hclosed] at h1
  simp only [Option.isSome_none, Bool.false_eq_true, if_false] at h1
  cases hg : l.get_selected_command with
  | none => rw [hg] at h1; exact Option.noConfusion h1
  | some r =>
      rw [hg] at h1
      cases r with
      | none =>
          dsimp only at h1
          injection h1 with h1
          subst h1
          rw [hclosed] at hopen
          exact Bool.noConfusion hopen
      | some cmd =>
          cases cmd with
          | none =>
              dsimp only at h1
              injection h1 with h1
              subst h1
              rw [hclosed] at hopen
              exact Bool.noConfusion hopen
          | raw c =>
              dsimp only at h1
              injection h1 with h1
              subst h1
              unfold CustomList.toggle_preview_window
              rw [if_pos (by simp)]
              exact congrArg some (update_preview_none_eq l hclosed)
          | localFile p =>
              dsimp only at h1
              cases hf : fs p with
              | none => rw [hf] at h1; exact Option.noConfusion h1
              | some contents =>
                  rw [hf] at h1
                  injection h1 with h1
                  subst h1
                  unfold CustomList.toggle_preview_window
                  rw [if_pos (by simp)]
                  exact congrArg some (update_preview_none_eq l hclosed)

/-- The inline script text of the "Neovim Setup" entry. -/
def rawNeovimCmd : String :=
  "bash -c \"$(curl -s https://raw.githubusercontent.com/ChrisTitusTech/neovim/main/setup.sh)\""

/-- A state with the filter "neovim" active, selecting the `Raw` "Neovim
Setup" command. -/
def neovimFiltered : CustomList :=
  CustomList.mk linutilTree [[]] (some 0) Option.none "neovim"
    [⟨"Neovim Setup", Command.raw rawNeovimCmd⟩]

/-- `neovimFiltered` with its preview opened. -/
def neovimPreviewOpen : CustomList :=
  { neovimFiltered with
    preview_window_state := some (PreviewWindowState.mk (rustLines rawNeovimCmd) 0) }

/-- C8 witness: opening and then closing the preview on the "Neovim Setup"
selection returns the exact original state. -/
theorem toggle_preview_round_trip_witness :
    neovimPreviewOpen.toggle_preview_window (fun _ => Option.none) =
      some neovimFiltered :=
  toggle_preview_round_trip (fun _ => Option.none) neovimFiltered
    neovimPreviewOpen rfl rfl rfl

/-- C9: toggling the preview while the resolved selection is the group
placeholder (`Command::None`) is a no-op: no preview opens and the state is
returned unchanged. -/
theorem toggle_preview_group_noop (fs : String → Option String)
    (l : CustomList)
    (hclosed : l.preview_window_state = Option.none)
    (hsel : l.get_selected_command = some (some Command.none)) :
    l.toggle_preview_window fs = some l := by
  unfold CustomList.toggle_preview_window
  rw [hclosed, hsel]
  rfl

/-- C9 witness: at `new()` the selection is the group "System Setup", whose
Action is the placeholder; toggling changes nothing. -/
theorem toggle_preview_group_noop_witness :
    CustomList.new.toggle_preview_window (fun _ => Option.none) =
      some CustomList.new :=
  toggle_preview_group_noop (fun _ => Option.none) CustomList.new rfl rfl

/-- C10: toggling the preview open with no selection panics — the code
unwraps `selected()` unconditionally — for every state with a closed preview
and a `None` selection (rather than being a no-op). -/
theorem toggle_preview_requires_selection (fs : String → Option String)
    (l : CustomList)
    (hclosed : l.preview_window_state = Option.none)
    (hnone : l.list_state = Option.none) :
    l.toggle_preview_window fs = Option.none := by
  unfold CustomList.toggle_preview_window CustomList.get_selected_command
  rw [hclosed, hnone]
  rfl

/-- C10 witness: `new()` with the selection cleared panics on toggle. -/
theorem toggle_preview_requires_selection_witness :
    ({ CustomList.new with list_state := Option.none }).toggle_preview_window
        (fun _ => Option.none) = Option.none :=
  toggle_preview_requires_selection (fun _ => Option.none)
    { CustomList.new with list_state := Option.none } rfl rfl

end Linutil
